import Mathlib

set_option linter.unusedVariables false

/-- JSON-like values as manipulated by the JavaScript source: objects are
association lists in insertion order (JS object property order), numbers are
modelled as rationals. -/
inductive Json where
  | null : Json
  | bool (b : Bool) : Json
  | num (q : ℚ) : Json
  | str (s : String) : Json
  | arr (items : List Json) : Json
  | obj (fields : List (String × Json)) : Json

namespace Json

mutual

/-- Boolean equality test for `Json` values. -/
def jsonBeq : Json → Json → Bool
  | .null, .null => true
  | .bool a, .bool b => a = b
  | .num a, .num b => a = b
  | .str a, .str b => a = b
  | .arr a, .arr b => jsonBeqItems a b
  | .obj a, .obj b => jsonBeqEntries a b
  | _, _ => false

/-- Boolean equality test for lists of `Json` values. -/
def jsonBeqItems (vs ws : List Json) : Bool :=
  match vs, ws with
  | v :: vs, w :: ws => jsonBeq v w && jsonBeqItems vs ws
  | [], [] => true
  | _, _ => false

/-- Boolean equality test for `Json` object field lists. -/
def jsonBeqEntries (es fos : List (String × Json)) : Bool :=
  match es, fos with
  | (k, v) :: es, (l, w) :: fos => k = l && jsonBeq v w && jsonBeqEntries es fos
  | [], [] => true
  | _, _ => false

end

mutual

theorem jsonBeq_iff : ∀ a b : Json, jsonBeq a b = true ↔ a = b
  | .null, .null => by simp [jsonBeq]
  | .bool a, .bool b => by simp [jsonBeq]
  | .num a, .num b => by simp [jsonBeq]
  | .str a, .str b => by simp [jsonBeq]
  | .arr a, .arr b => by
      simp only [jsonBeq, arr.injEq]
      exact jsonBeqItems_iff a b
  | .obj a, .obj b => by
      simp only [jsonBeq, obj.injEq]
      exact jsonBeqEntries_iff a b
  | .null, .bool _ | .null, .num _ | .null, .str _ | .null, .arr _ | .null, .obj _
  | .bool _, .null | .bool _, .num _ | .bool _, .str _ | .bool _, .arr _ | .bool _, .obj _
  | .num _, .null | .num _, .bool _ | .num _, .str _ | .num _, .arr _ | .num _, .obj _
  | .str _, .null | .str _, .bool _ | .str _, .num _ | .str _, .arr _ | .str _, .obj _
  | .arr _, .null | .arr _, .bool _ | .arr _, .num _ | .arr _, .str _ | .arr _, .obj _
  | .obj _, .null | .obj _, .bool _ | .obj _, .num _ | .obj _, .str _ | .obj _, .arr _ => by
      simp [jsonBeq]

theorem jsonBeqItems_iff : ∀ a b : List Json, jsonBeqItems a b = true ↔ a = b
  | v :: vs, w :: ws => by
      simp only [jsonBeqItems, Bool.and_eq_true, List.cons.injEq]
      exact and_congr (jsonBeq_iff v w) (jsonBeqItems_iff vs ws)
  | [], [] => by simp [jsonBeqItems]
  | [], _ :: _ => by simp [jsonBeqItems]
  | _ :: _, [] => by simp [jsonBeqItems]

theorem jsonBeqEntries_iff : ∀ a b : List (String × Json), jsonBeqEntries a b = true ↔ a = b
  | (k, v) :: es, (l, w) :: fos => by
      simp only [jsonBeqEntries, Bool.and_eq_true, List.cons.injEq, Prod.mk.injEq,
        decide_eq_true_eq]
      rw [jsonBeq_iff v w, jsonBeqEntries_iff es fos, and_assoc]
  | [], [] => by simp [jsonBeqEntries]
  | [], _ :: _ => by simp [jsonBeqEntries]
  | _ :: _, [] => by simp [jsonBeqEntries]

end

instance : DecidableEq Json := fun a b =>
  decidable_of_iff (jsonBeq a b = true) (jsonBeq_iff a b)

end Json

/-! ### Cache key normalization (LLMResponseCache.normalizeObject) -/

namespace Json

/-- The key comparison used when sorting object fields: JavaScript
`Object.keys(obj).sort()` orders keys lexicographically. -/
def fieldLE (a b : String × Json) : Prop := a.1 ≤ b.1

instance : DecidableRel fieldLE := fun a b => by
  unfold fieldLE; infer_instance

instance : IsTotal (String × Json) fieldLE :=
  ⟨fun a b => le_total a.1 b.1⟩

instance : IsTrans (String × Json) fieldLE :=
  ⟨fun _ _ _ h₁ h₂ => le_trans h₁ h₂⟩

/-- Strict version of the key order, used to show sorted field lists with
distinct keys are unique. -/
def fieldLT (a b : String × Json) : Prop := a.1 < b.1

instance : IsAntisymm (String × Json) fieldLT :=
  ⟨fun _ _ h₁ h₂ => absurd (lt_trans h₁ h₂) (lt_irrefl _)⟩

/-- Sort an object's fields by key, as `Object.keys(obj).sort()` does. -/
def sortFields (fs : List (String × Json)) : List (String × Json) :=
  List.insertionSort fieldLE fs

mutual

/-- Model of `LLMResponseCache.normalizeObject`: recursively sorts object keys so that
semantically identical values with different key order normalize identically;
primitives are returned as-is and arrays are normalized elementwise. -/
def normalizeObject : Json → Json
  | .null => .null
  | .bool b => .bool b
  | .num q => .num q
  | .str s => .str s
  | .arr xs => .arr (normalizeList xs)
  | .obj fs => .obj (sortFields (normalizeFields fs))

/-- Elementwise normalization of a JSON array. -/
def normalizeList : List Json → List Json
  | [] => []
  | x :: xs => normalizeObject x :: normalizeList xs

/-- Fieldwise normalization of a JSON object's fields (keys untouched). -/
def normalizeFields : List (String × Json) → List (String × Json)
  | [] => []
  | (k, v) :: fs => (k, normalizeObject v) :: normalizeFields fs

end

end Json

/-! ### Equality up to recursive permutation of object key order -/

mutual

/-- Two JSON values are semantically equivalent when they agree up to
recursively permuting the declaration order of object fields. -/
inductive JEquiv : Json → Json → Prop where
  | null : JEquiv .null .null
  | bool (b : Bool) : JEquiv (.bool b) (.bool b)
  | num (q : ℚ) : JEquiv (.num q) (.num q)
  | str (s : String) : JEquiv (.str s) (.str s)
  | arr {xs ys : List Json} : JEquivList xs ys → JEquiv (.arr xs) (.arr ys)
  | obj {fs gs gs' : List (String × Json)} :
      JEquivFields fs gs' → gs'.Perm gs → JEquiv (.obj fs) (.obj gs)

/-- Elementwise equivalence of JSON arrays (order matters in arrays). -/
inductive JEquivList : List Json → List Json → Prop where
  | nil : JEquivList [] []
  | cons {x y : Json} {xs ys : List Json} :
      JEquiv x y → JEquivList xs ys → JEquivList (x :: xs) (y :: ys)

/-- Pointwise equivalence of object field lists: same keys in the same order,
equivalent values. -/
inductive JEquivFields : List (String × Json) → List (String × Json) → Prop where
  | nil : JEquivFields [] []
  | cons (k : String) {v w : Json} {fs gs : List (String × Json)} :
      JEquiv v w → JEquivFields fs gs → JEquivFields ((k, v) :: fs) ((k, w) :: gs)

end

namespace Json

/-- Duplicate-freeness check for a key list (JS objects cannot repeat keys). -/
def nodupKeys : List String → Bool
  | [] => true
  | k :: ks => !(ks.contains k) && nodupKeys ks

mutual

/-- Well-formedness of a JSON value as produced by a JavaScript runtime: every
object has duplicate-free keys. -/
def wf : Json → Bool
  | .null => true
  | .bool _ => true
  | .num _ => true
  | .str _ => true
  | .arr xs => wfList xs
  | .obj fs => nodupKeys (fs.map Prod.fst) && wfFields fs

/-- Well-formedness of every element of a JSON array. -/
def wfList : List Json → Bool
  | [] => true
  | x :: xs => wf x && wfList xs

/-- Well-formedness of every value in an object field list. -/
def wfFields : List (String × Json) → Bool
  | [] => true
  | (_, v) :: fs => wf v && wfFields fs

end

end Json

/-! ### JavaScript object-manipulation helpers for the schema adapters -/

namespace Json

/-- Property lookup in a field list (`obj.key`). -/
def lookupField : List (String × Json) → String → Option Json
  | [], _ => none
  | (k, v) :: rest, key => if k = key then some v else lookupField rest key

/-- Property access on a value (`value.key`, `undefined` on non-objects). -/
def getField : Json → String → Option Json
  | .obj fs, key => lookupField fs key
  | _, _ => none

/-- Model of `delete obj.key`. -/
def deleteField : List (String × Json) → String → List (String × Json)
  | [], _ => []
  | (k, v) :: rest, key =>
      if k = key then deleteField rest key else (k, v) :: deleteField rest key

/-- Model of `obj.key = v`: update in place when the key exists (keeping its position),
otherwise append (JS property insertion order). -/
def setField : List (String × Json) → String → Json → List (String × Json)
  | [], key, v => [(key, v)]
  | (k, w) :: rest, key, v =>
      if k = key then (key, v) :: rest else (k, w) :: setField rest key v

/-- JavaScript truthiness. -/
def truthy : Json → Bool
  | .null => false
  | .bool b => b
  | .num q => decide (q ≠ 0)
  | .str s => decide (s ≠ "")
  | .arr _ => true
  | .obj _ => true

/-- Model of `typeof v === "object"` for non-null values (the adapters' guards pair it
with a truthiness test, so `null` never reaches the object branch). -/
def isJsObject : Json → Bool
  | .obj _ => true
  | .arr _ => true
  | _ => false

/-- Model of `Object.keys`. -/
def jsKeys : Json → List String
  | .obj fs => fs.map Prod.fst
  | .arr xs => (List.range xs.length).map toString
  | _ => []

end Json

/-! ### LLMResponseCache: key derivation, get, set, constructor -/

/-- A chat message as the cache sees it: `generateKey` reads only `role` and
`content`; any other fields (`extra`) are ignored. -/
structure Message where
  role : String
  content : String
  extra : List (String × Json) := []

namespace LLMResponseCache

open Json

/-- The `{role, content}` projection of one message used inside the key object. -/
def msgKeyPart (m : Message) : Json :=
  .obj [("role", .str m.role), ("content", .str m.content)]

/-- Model of `LLMResponseCache.generateKey`: the composite object
`{messages: …, temperature, schema: normalized}` built from the request.
`schema` is omitted when absent (in the source, `JSON.stringify` drops the
`undefined`-valued property). The MD5 digest of the serialization is modelled
as the identity on this composite object — an injective (collision-free)
idealization of `md5 ∘ JSON.stringify`. -/
def generateKey (messages : List Message) (temperature : ℚ)
    (schema : Option Json) : Json :=
  .obj ([("messages", .arr (messages.map msgKeyPart)),
         ("temperature", .num temperature)] ++
        (match schema with
         | some s => [("schema", normalizeObject s)]
         | none => []))

/-- Cache configuration after the constructor has applied defaults. -/
structure CacheConfig where
  maxAge : ℕ
  maxSize : ℕ
  enabled : Bool

/-- Constructor options, every field optional as in the source. -/
structure CacheOptions where
  maxAge : Option ℕ := none
  maxSize : Option ℕ := none
  enabled : Option Bool := none

/-- The `LLMResponseCache` constructor: `options?.maxAge || 3600000` falls back
to the default when the option is absent or `0` (falsy); likewise `maxSize`;
`enabled` is `options?.enabled !== false`. -/
def construct (options : Option CacheOptions) : CacheConfig :=
  { maxAge :=
      match options.bind (·.maxAge) with
      | some a => if a = 0 then 60 * 60 * 1000 else a
      | none => 60 * 60 * 1000
    maxSize :=
      match options.bind (·.maxSize) with
      | some s => if s = 0 then 1000 else s
      | none => 1000
    enabled :=
      match options.bind (·.enabled) with
      | some false => false
      | _ => true }

/-- The cache's `Map` contents, in insertion order (JS `Map` iteration order):
key, then `{timestamp, value}`. -/
structure CacheState (α : Type _) where
  entries : List (Json × ℕ × α)

/-- Model of `Map.get`. -/
def lookupEntry {α : Type _} : List (Json × ℕ × α) → Json → Option (ℕ × α)
  | [], _ => none
  | (k, e) :: rest, key => if k = key then some e else lookupEntry rest key

/-- Model of `Map.set`: replaces in place when the key exists (keeping its position),
otherwise appends. -/
def mapSet {α : Type _} : List (Json × ℕ × α) → Json → ℕ × α → List (Json × ℕ × α)
  | [], key, e => [(key, e)]
  | (k, e₀) :: rest, key, e =>
      if k = key then (key, e) :: rest else (k, e₀) :: mapSet rest key e

/-- Model of `Map.delete`. -/
def eraseKey {α : Type _} : List (Json × ℕ × α) → Json → List (Json × ℕ × α)
  | [], _ => []
  | (k, e) :: rest, key => if k = key then rest else (k, e) :: eraseKey rest key

/-- The eviction scan in `set`: the first entry whose timestamp is strictly
smaller than every earlier candidate (`entry.timestamp < oldestTime`), i.e. the
first entry holding the minimal timestamp. -/
def findOldest {α : Type _} (l : List (Json × ℕ × α)) : Option (Json × ℕ × α) :=
  l.foldl
    (fun acc e =>
      match acc with
      | none => some e
      | some o => if e.2.1 < o.2.1 then some e else acc)
    none

/-- Model of `LLMResponseCache.get`, with the wall clock passed explicitly as `now`.
Returns the value (or `none`) together with the state after lazy expiry. -/
def get {α : Type _} (cfg : CacheConfig) (st : CacheState α)
    (messages : List Message) (temperature : ℚ) (schema : Option Json)
    (now : ℕ) : Option α × CacheState α :=
  if cfg.enabled = false then (none, st) else
  let key := generateKey messages temperature schema
  match lookupEntry st.entries key with
  | none => (none, st)
  | some (ts, v) =>
      if cfg.maxAge < now - ts then (none, ⟨eraseKey st.entries key⟩)
      else (some v, st)

/-- Model of `LLMResponseCache.set`, with the wall clock passed explicitly as `now`:
when the cache is at (or beyond) `maxSize`, the single entry found by the
oldest-timestamp scan is deleted, then the new entry is stored. -/
def set {α : Type _} (cfg : CacheConfig) (st : CacheState α)
    (messages : List Message) (temperature : ℚ) (value : α)
    (schema : Option Json) (now : ℕ) : CacheState α :=
  if cfg.enabled = false then st else
  let key := generateKey messages temperature schema
  let entries :=
    if cfg.maxSize ≤ st.entries.length then
      match findOldest st.entries with
      | some oldest => eraseKey st.entries oldest.1
      | none => st.entries
    else st.entries
  ⟨mapSet entries key (now, value)⟩

/-- Model of `LLMResponseCache.clear`. -/
def clear {α : Type _} (_ : CacheState α) : CacheState α := ⟨[]⟩

end LLMResponseCache

/-- Semantic equivalence of optional schemas: both absent, or both present and
equal up to recursive permutation of object key order. -/
def schemaEquiv : Option Json → Option Json → Prop
  | none, none => True
  | some a, some b => JEquiv a b
  | _, _ => False

/-- Well-formedness of an optional schema. -/
def schemaWf : Option Json → Bool
  | none => true
  | some s => Json.wf s

/-! ### generateInstructions / sanitizeInstructionSuggestions -/

namespace Instructions

/-- Split a character list at `/\r?\n/`: every `\n` (optionally preceded by a
`\r` that is consumed with it) separates lines; a lone `\r` stays. -/
def splitLinesChars : List Char → List (List Char)
  | [] => [[]]
  | '\r' :: '\n' :: rest => [] :: splitLinesChars rest
  | '\n' :: rest => [] :: splitLinesChars rest
  | c :: rest =>
      match splitLinesChars rest with
      | line :: lines => (c :: line) :: lines
      | [] => [[c]]

/-- JavaScript `trim()`: drop leading and trailing whitespace. -/
def trimChars (l : List Char) : List Char :=
  ((l.dropWhile Char.isWhitespace).reverse.dropWhile Char.isWhitespace).reverse

/-- Whether the second list starts with the first. -/
def leadsWith : List Char → List Char → Bool
  | [], _ => true
  | _ :: _, [] => false
  | p :: ps, c :: cs => p = c && leadsWith ps cs

/-- Model of `replace(/^[-*]\s*/, "")`: remove one leading `-` or `*` together with the
whitespace following it. -/
def stripBullet (l : List Char) : List Char :=
  match l with
  | c :: rest =>
      if c = '-' ∨ c = '*' then rest.dropWhile Char.isWhitespace else l
  | [] => l

/-- Model of `replace(/^[0-9]+\.\s*/, "")`: remove leading digits followed by a period
and any whitespace after it. -/
def stripNumbering (l : List Char) : List Char :=
  if (l.takeWhile Char.isDigit).isEmpty then l
  else
    match l.dropWhile Char.isDigit with
    | '.' :: rest => rest.dropWhile Char.isWhitespace
    | _ => l

/-- Model of `replace(/^"|"$/g, "")`: remove a leading and a trailing double quote. -/
def stripQuotes (l : List Char) : List Char :=
  let l₁ := match l with
    | '"' :: rest => rest
    | _ => l
  match l₁.reverse with
  | '"' :: rest => rest.reverse
  | _ => l₁

/-- Whether `'*' :: '*'` occurs consecutively. -/
def hasDoubleStar : List Char → Bool
  | '*' :: '*' :: _ => true
  | _ :: rest => hasDoubleStar rest
  | [] => false

/-- The filter regex `/^(\*\*.*\*\*|Individual Suggestions:|Integration
Suggestions:)/i`: a leading `**` closed by another `**` with no line terminator
between (`.` does not match line terminators), or one of the two known section
headers, case-insensitively. -/
def isHeaderLike (l : List Char) : Bool :=
  (leadsWith ['*', '*'] l &&
    hasDoubleStar ((l.drop 2).takeWhile (fun c => c ≠ '\n' ∧ c ≠ '\r'))) ||
  leadsWith "individual suggestions:".data (l.map Char.toLower) ||
  leadsWith "integration suggestions:".data (l.map Char.toLower)

/-- The flattening step of the sanitizer: strings are split into trimmed lines,
non-string entries contribute nothing. -/
def flattenItems : List Json → List (List Char)
  | [] => []
  | .str s :: rest => (splitLinesChars s.data).map trimChars ++ flattenItems rest
  | _ :: rest => flattenItems rest

/-- Model of `sanitizeInstructionSuggestions`, applied to an array argument (the only
shape `attemptInstructionGeneration` can pass it, having already checked
`Array.isArray`): flatten multi-line strings, strip list/numbering prefixes and
wrapping quotes, trim, and drop empty or header-like lines. -/
def sanitizeInstructionSuggestions (items : List Json) : List String :=
  (((flattenItems items).map
      (fun l => trimChars (stripQuotes (stripNumbering (stripBullet l))))).filter
    (fun l => !l.isEmpty && !isHeaderLike l)).map String.mk

/-- Model of `Math.min(0.3 * retry, 1.0)`. -/
def attemptTemperature (retry : ℕ) : ℚ := min ((3 : ℚ) / 10 * retry) 1

/-- The fixed response schema `{type: "array", items: {type: "string"}}`. -/
def instructionSchema : Json :=
  .obj [("type", .str "array"), ("items", .obj [("type", .str "string")])]

/-- Model of `attemptInstructionGeneration`. `genObject` stands for
`LanguageModel.generateObject` (messages, schema, temperature ↦ response or
thrown error). A non-array or empty response is a thrown error. After
sanitization, the source throws when zero items remain — but that throw sits
inside its own `try`, whose `catch` logs and returns `[]`, so the empty list
comes back as a *success* value. -/
def attemptInstructionGeneration
    (genObject : List Message → Json → ℚ → Except String Json)
    (messages : List Message) (retry : ℕ) : Except String (List String) :=
  let temperature := attemptTemperature retry
  match genObject messages instructionSchema temperature with
  | .error e => .error e
  | .ok generatedInstructions =>
      match generatedInstructions with
      | .arr items =>
          if items.length = 0 then .error "No valid instructions generated"
          else
            let sanitized := sanitizeInstructionSuggestions items
            if sanitized.length = 0 then .ok []
            else .ok sanitized
      | _ => .error "No valid instructions generated"

/-- One record per attempt: the temperature used, the message history passed,
and the attempt's outcome. -/
structure AttemptRecord where
  temperature : ℚ
  messages : List Message
  result : Except String (List String)

/-- The feedback message appended after a failed attempt. -/
def feedbackMessage (e : String) : Message :=
  ⟨"user", "The previous attempt failed with error: " ++ e ++ ". Please try again.", []⟩

/-- Model of `MAX_RETRIES` in the source. -/
def MAX_RETRIES : ℕ := 3

/-- The `while (retryCount <= MAX_RETRIES)` loop of `generateInstructions`,
written with a fuel argument counting the remaining permitted iterations
(`fuel = MAX_RETRIES + 1 - retryCount`, so the loop guard `retryCount ≤
MAX_RETRIES` is exactly `fuel > 0`); the fuel-exhausted case is the source's
(unreachable) trailing `throw new Error("Unexpected error …")`. Returns the
result together with the per-attempt trace. -/
def generateInstructionsGo
    (genObject : List Message → Json → ℚ → Except String Json) :
    ℕ → List Message → ℕ → Except String (List String) × List AttemptRecord
  | 0, _, _ => (.error "Unexpected error in instruction generation", [])
  | fuel + 1, messages, retryCount =>
      let att := attemptInstructionGeneration genObject messages retryCount
      let record : AttemptRecord := ⟨attemptTemperature retryCount, messages, att⟩
      match att with
      | .ok instructions => (.ok instructions, [record])
      | .error e =>
          if MAX_RETRIES < retryCount + 1 then (.error e, [record])
          else
            let next := generateInstructionsGo genObject fuel
              (messages ++ [feedbackMessage e]) (retryCount + 1)
            (next.1, record :: next.2)

/-- The initial system prompt of `generateInstructions` (free text; its
content never influences control flow). -/
def instructionSystemPrompt : String :=
  "You are an expert at suggesting specific, implementable workflows combining different APIs and systems."

/-- Model of `generateInstructions`: builds the two initial messages and runs the retry
loop starting at `retryCount = 0`. -/
def generateInstructions
    (genObject : List Message → Json → ℚ → Except String Json)
    (systemsDescription : String) :
    Except String (List String) × List AttemptRecord :=
  generateInstructionsGo genObject (MAX_RETRIES + 1)
    [⟨"system", instructionSystemPrompt, []⟩,
     ⟨"user", "Systems: " ++ systemsDescription, []⟩] 0

end Instructions

/-! ### GeminiModel.cleanSchemaForGemini -/

namespace GeminiModel

open Json

/-- Model of `cleanSchemaForGemini`. The source deep-copies its argument, deletes
`$schema`, `additionalProperties` and `optional` at the top level, and sets
`required` to the property names when `properties` is a truthy object. Its
recursive calls (`this.cleanSchemaForGemini(prop)` for nested properties and
for `schema.items`) each begin by rebinding their parameter to a fresh deep
copy (`schema = JSON.parse(JSON.stringify(schema))`), mutate only that copy,
and have their return values discarded — so they leave the returned value
untouched and the observable transform is top-level only. Non-objects are
returned unchanged. -/
def cleanSchemaForGemini (schema : Json) : Json :=
  match schema with
  | .obj fs =>
      let fs1 := deleteField fs "$schema"
      let fs2 := deleteField fs1 "additionalProperties"
      let fs3 := deleteField fs2 "optional"
      let fs4 :=
        match lookupField fs3 "properties" with
        | some props =>
            if truthy props && isJsObject props then
              setField fs3 "required" (.arr ((jsKeys props).map .str))
            else fs3
        | none => fs3
      .obj fs4
  | _ => schema

end GeminiModel

namespace Json

theorem sizeOf_mem_fields (p : String × Json) :
    ∀ {fs : List (String × Json)}, p ∈ fs → sizeOf p.2 < sizeOf (Json.obj fs) := by
  intro fs hm
  have h1 : sizeOf p < sizeOf fs := List.sizeOf_lt_of_mem hm
  cases p with
  | mk k v =>
      simp only [Prod.mk.sizeOf_spec] at h1
      simp only [Json.obj.sizeOf_spec]
      omega

theorem sizeOf_mem_arr {x : Json} {xs : List Json} (hm : x ∈ xs) :
    sizeOf x < sizeOf (Json.arr xs) := by
  have h1 : sizeOf x < sizeOf xs := List.sizeOf_lt_of_mem hm
  simp only [Json.arr.sizeOf_spec]
  omega

theorem sizeOf_lookupField :
    ∀ {fs : List (String × Json)} {k : String} {v : Json},
      lookupField fs k = some v → sizeOf v < sizeOf (Json.obj fs) := by
  intro fs k v h
  induction fs with
  | nil => simp [lookupField] at h
  | cons p rest ih =>
      cases p with
      | mk k' v' =>
          by_cases hk : k' = k
          · simp only [lookupField, hk, if_true, Option.some.injEq] at h
            subst h
            exact sizeOf_mem_fields (k', v') (List.mem_cons_self _ _)
          · simp only [lookupField, hk, if_false] at h
            have := ih h
            simp only [Json.obj.sizeOf_spec, List.cons.sizeOf_spec] at this ⊢
            omega

end Json

/-! ### OpenAIModel.enforceStrictSchema and result unwrapping -/

namespace OpenAIModel

open Json

mutual

/-- Model of `enforceStrictSchema`. Non-objects are returned unchanged by the guard. A
root whose `type` is not `"object"` is wrapped in the synthetic single-key
object `{type: "object", properties: {___results: schema}}`; the strict pass
on that wrapper (whose shape is fixed) is written out directly: it forces
`additionalProperties: false`, `strict: true`, `required: ["___results"]` and
recurses into the wrapped schema as a non-root. On an object with `type`
`"object"` or `"array"`, the pass forces `additionalProperties: false` and
`strict: true`, sets `required` to all property names, drops
`patternProperties`, recurses into every property value
(`Object.values(schema.properties).forEach(…)`, split out below as
`enforceProperties`), recurses into `items` and drops `minItems`/`maxItems`.
The source mutates in place; its reads of `schema.properties` and
`schema.items` see the original values, which the earlier writes to other
keys never change. -/
def enforceStrictSchema (schema : Json) (isRoot : Bool) : Json :=
  if ¬ isJsObject schema then schema
  else if hw : isRoot = true ∧ getField schema "type" ≠ some (.str "object") then
    .obj [("type", .str "object"),
          ("properties", .obj [("___results", enforceStrictSchema schema false)]),
          ("additionalProperties", .bool false),
          ("strict", .bool true),
          ("required", .arr [.str "___results"])]
  else
    match schema with
    | .obj fs =>
        if lookupField fs "type" = some (.str "object") ∨
            lookupField fs "type" = some (.str "array") then
          let fs1 := setField fs "additionalProperties" (.bool false)
          let fs2 := setField fs1 "strict" (.bool true)
          let fs3 :=
            match hp : lookupField fs "properties" with
            | some props =>
                if truthy props then
                  setField
                    (deleteField
                      (setField fs2 "required" (.arr ((jsKeys props).map .str)))
                      "patternProperties")
                    "properties" (enforceProperties props)
                else fs2
            | none => fs2
          let fs4 :=
            match hi : lookupField fs "items" with
            | some items =>
                if truthy items then
                  deleteField
                    (deleteField
                      (setField fs3 "items" (enforceStrictSchema items false))
                      "minItems")
                    "maxItems"
                else fs3
            | none => fs3
          .obj fs4
        else schema
    | _ => schema
  termination_by 2 * sizeOf schema + (if isRoot then 1 else 0)
  decreasing_by
    · simp only [hw.1, reduceIte]
      omega
    · have h1 : sizeOf props < sizeOf (Json.obj fs) := sizeOf_lookupField hp
      simp only [Json.obj.sizeOf_spec, reduceIte] at h1 ⊢
      omega
    · have h1 : sizeOf items < sizeOf (Json.obj fs) := sizeOf_lookupField hi
      simp only [Json.obj.sizeOf_spec, reduceIte] at h1 ⊢
      omega

/-- Model of `Object.values(schema.properties).forEach(prop => enforceStrictSchema(prop,
false))`: the in-place recursion into every property value; on a JS array,
`Object.values` yields its elements. -/
def enforceProperties (props : Json) : Json :=
  match props with
  | .obj pfs => .obj (enforcePropFields pfs)
  | .arr xs => .arr (enforcePropItems xs)
  | other => other
  termination_by 2 * sizeOf props
  decreasing_by
    · simp only [Json.obj.sizeOf_spec]
      omega
    · simp only [Json.arr.sizeOf_spec]
      omega

/-- Recursion into object-property values. -/
def enforcePropFields : List (String × Json) → List (String × Json)
  | [] => []
  | (k, v) :: rest => (k, enforceStrictSchema v false) :: enforcePropFields rest
  termination_by pfs => 2 * sizeOf pfs
  decreasing_by
    · simp only [List.cons.sizeOf_spec, Prod.mk.sizeOf_spec, reduceIte]
      omega
    · simp only [List.cons.sizeOf_spec]
      omega

/-- Recursion into array elements of a `properties` value. -/
def enforcePropItems : List Json → List Json
  | [] => []
  | v :: rest => enforceStrictSchema v false :: enforcePropItems rest
  termination_by xs => 2 * sizeOf xs
  decreasing_by
    · simp only [List.cons.sizeOf_spec, reduceIte]
      omega
    · simp only [List.cons.sizeOf_spec]
      omega

end

/-- The unwrap step in `generateObject` result parsing:
`if (generatedObject.___results) generatedObject = generatedObject.___results`,
a JavaScript truthiness test on the `___results` property. -/
def unwrapResults (generatedObject : Json) : Json :=
  match getField generatedObject "___results" with
  | some v => if truthy v then v else generatedObject
  | none => generatedObject

end OpenAIModel

/-! ### Queue (dedup async queue) -/

namespace Queue

/-- One job: its dedup id, a task identifier (so executions can be counted),
and whether the task throws when awaited. -/
structure Job where
  id : String
  taskId : ℕ
  fails : Bool
  deriving DecidableEq

/-- The id/task projection of a job, forgetting only the failure flag. -/
def Job.proj (j : Job) : String × ℕ := (j.id, j.taskId)

/-- A queue instance's state: the pending list (`this.queue`), the tracked-id
set (`this.jobSet`), the job currently being awaited (occupied between the
worker's `shift()` and the task settling), the taskIds of settled tasks in
execution order, and the log. -/
structure State where
  queue : List Job
  jobSet : List String
  running : Option Job
  executed : List ℕ
  logs : List String
  deriving DecidableEq

/-- A fresh queue. -/
def initState : State := ⟨[], [], none, [], []⟩

/-- The `logMessage("info", …)` notice for a duplicate id. -/
def dupMsg (id : String) : String :=
  "Job with ID " ++ id ++ " is already in the queue."

/-- The `logMessage("error", …)` entry for a task that threw. -/
def errMsg (id : String) : String :=
  "Error processing queue " ++ id ++ ":"

/-- Model of `enqueue(id, task)`: when the id is already tracked, nothing but a log
notice happens; otherwise the job is appended and its id recorded. (The
`processQueue()` kick-off is modelled by the separate worker steps below;
`enqueue` itself only mutates the queue and the id set, and, being a total
function, never propagates a task's failure to its caller.) -/
def enqueue (st : State) (id : String) (tid : ℕ) (fails : Bool) : State :=
  if id ∈ st.jobSet then
    { st with logs := st.logs ++ [dupMsg id] }
  else
    { st with queue := st.queue ++ [⟨id, tid, fails⟩],
              jobSet := st.jobSet ++ [id] }

/-- The worker takes the next job (`this.queue.shift()`) when no task is
mid-flight; between this step and `finishJob` the task is being awaited. -/
def startJob (st : State) : State :=
  match st.running, st.queue with
  | none, job :: rest =>
      { st with queue := rest, running := some job,
                logs := st.logs ++ ["Processing queue " ++ job.id] }
  | _, _ => st

/-- The awaited task settles: a throwing task is caught and logged
(`catch … logMessage("error", …)`), and in either case the `finally` block
removes the id from the tracked set and the loop proceeds. -/
def finishJob (st : State) : State :=
  match st.running with
  | some job =>
      { st with running := none,
                executed := st.executed ++ [job.taskId],
                logs := st.logs ++ (if job.fails then [errMsg job.id] else []),
                jobSet := st.jobSet.erase job.id }
  | none => st

/-- External events: an `enqueue` call, the worker picking up a job, and a
task settling. Interleaving `enq` between `start` and `finish` models calls
arriving while a task is awaited. -/
inductive Step where
  | enq (id : String) (tid : ℕ) (fails : Bool)
  | start
  | finish
  deriving DecidableEq

def applyStep (st : State) : Step → State
  | .enq id tid fails => enqueue st id tid fails
  | .start => startJob st
  | .finish => finishJob st

/-- The state of a queue instance after a sequence of events. -/
def run (steps : List Step) : State := steps.foldl applyStep initState

/-- The ids currently queued or running. -/
def trackedIds (st : State) : List String :=
  st.queue.map Job.id ++ (match st.running with
    | some j => [j.id]
    | none => [])

/-- The invariant tying the `jobSet` to the queue and the in-flight job. -/
def Inv (st : State) : Prop :=
  (∀ id, id ∈ st.jobSet ↔ id ∈ trackedIds st) ∧
    st.jobSet.Nodup ∧ (trackedIds st).Nodup

end Queue

namespace Queue

/-- Replace a step's task by one that returns normally (same id, same task
identity, no throw). -/
def Step.strip : Step → Step
  | .enq id tid _ => .enq id tid false
  | s => s

/-- Two queue states that agree on everything an observer of executions and
deduplication can see — pending jobs (id and task identity), tracked ids, the
in-flight job, and the settled-task order — differing at most in logs and in
the failure flags of pending/in-flight tasks. -/
def R (st st' : State) : Prop :=
  st.queue.map Job.proj = st'.queue.map Job.proj ∧
  st.jobSet = st'.jobSet ∧
  st.running.map Job.proj = st'.running.map Job.proj ∧
  st.executed = st'.executed

end Queue

/-! ### Theorems -/

namespace Json

theorem normalizeFields_eq_map (fs : List (String × Json)) :
    normalizeFields fs = fs.map (fun p => (p.1, normalizeObject p.2)) := by
  induction fs with
  | nil => rfl
  | cons p fs ih => cases p; simp [normalizeFields, ih]

theorem normalizeFields_keys (fs : List (String × Json)) :
    (normalizeFields fs).map Prod.fst = fs.map Prod.fst := by
  simp [normalizeFields_eq_map]

theorem pairwise_and_of {α : Type _} {R S : α → α → Prop} :
    ∀ {l : List α}, l.Pairwise R → l.Pairwise S →
      l.Pairwise (fun a b => R a b ∧ S a b) := by
  intro l hr hs
  induction l with
  | nil => exact List.Pairwise.nil
  | cons a l ih =>
      rcases List.pairwise_cons.mp hr with ⟨hra, hrl⟩
      rcases List.pairwise_cons.mp hs with ⟨hsa, hsl⟩
      exact List.pairwise_cons.mpr ⟨fun b hb => ⟨hra b hb, hsa b hb⟩, ih hrl hsl⟩

/-- Two field lists that are permutations of one another and have duplicate-free
keys sort to the same list. -/
theorem sortFields_eq_of_perm {l₁ l₂ : List (String × Json)}
    (hp : l₁.Perm l₂) (hn : (l₁.map Prod.fst).Nodup) :
    sortFields l₁ = sortFields l₂ := by
  have hs₁ := List.sorted_insertionSort fieldLE l₁
  have hs₂ := List.sorted_insertionSort fieldLE l₂
  have hp₁ : sortFields l₁ |>.Perm l₁ := List.perm_insertionSort fieldLE l₁
  have hp₂ : sortFields l₂ |>.Perm l₂ := List.perm_insertionSort fieldLE l₂
  have hperm : (sortFields l₁).Perm (sortFields l₂) :=
    hp₁.trans (hp.trans hp₂.symm)
  -- upgrade sortedness under ≤ on keys to sortedness under < on keys using
  -- duplicate-freeness of the keys
  have hne₁ : (sortFields l₁).Pairwise (fun a b => a.1 ≠ b.1) := by
    have : ((sortFields l₁).map Prod.fst).Nodup := by
      exact (hp₁.map Prod.fst).nodup_iff.mpr hn
    exact (List.pairwise_map).mp this
  have hne₂ : (sortFields l₂).Pairwise (fun a b => a.1 ≠ b.1) := by
    have hn₂ : (l₂.map Prod.fst).Nodup := (hp.map Prod.fst).nodup_iff.mp hn
    have : ((sortFields l₂).map Prod.fst).Nodup := by
      exact (hp₂.map Prod.fst).nodup_iff.mpr hn₂
    exact (List.pairwise_map).mp this
  have hlt₁ : (sortFields l₁).Sorted fieldLT :=
    (pairwise_and_of hs₁ hne₁).imp (fun h => lt_of_le_of_ne h.1 h.2)
  have hlt₂ : (sortFields l₂).Sorted fieldLT :=
    (pairwise_and_of hs₂ hne₂).imp (fun h => lt_of_le_of_ne h.1 h.2)
  exact List.eq_of_perm_of_sorted hperm hlt₁ hlt₂

end Json

namespace Json

theorem nodupKeys_iff : ∀ ks : List String, nodupKeys ks = true ↔ ks.Nodup
  | [] => by simp [nodupKeys]
  | k :: ks => by
      simp [nodupKeys, nodupKeys_iff ks, List.nodup_cons]

theorem wfFields_iff_forall : ∀ fs : List (String × Json),
    wfFields fs = true ↔ ∀ p ∈ fs, wf p.2 = true
  | [] => by simp [wfFields]
  | (k, v) :: fs => by
      simp [wfFields, wfFields_iff_forall fs]

theorem wfFields_of_perm {fs gs : List (String × Json)}
    (hp : fs.Perm gs) (h : wfFields gs = true) : wfFields fs = true := by
  rw [wfFields_iff_forall] at h ⊢
  exact fun p hm => h p (hp.mem_iff.mp hm)

end Json

open Json in
mutual

theorem normalizeObject_eq_of_jequiv : ∀ {v w : Json}, JEquiv v w →
    wf v = true → wf w = true → normalizeObject v = normalizeObject w
  | .null, _, h, _, _ => by cases h; rfl
  | .bool _, _, h, _, _ => by cases h; rfl
  | .num _, _, h, _, _ => by cases h; rfl
  | .str _, _, h, _, _ => by cases h; rfl
  | .arr xs, _, h, hv, hw => by
      cases h with
      | arr hl =>
          rename_i ys
          have : normalizeList xs = normalizeList ys :=
            normalizeList_eq_of_jequivList hl hv hw
          simp [normalizeObject, this]
  | .obj fs, _, h, hv, hw => by
      cases h with
      | obj hf hperm =>
          rename_i gs gs'
          rw [wf, Bool.and_eq_true] at hv hw
          have hwgs' : wfFields gs' = true := wfFields_of_perm hperm hw.2
          have h₁ : normalizeFields fs = normalizeFields gs' :=
            normalizeFields_eq_of_jequivFields hf hv.2 hwgs'
          have h₂ : sortFields (normalizeFields gs') = sortFields (normalizeFields gs) := by
            apply sortFields_eq_of_perm
            · rw [normalizeFields_eq_map, normalizeFields_eq_map]
              exact hperm.map _
            · rw [normalizeFields_keys]
              have := (hperm.map Prod.fst).nodup_iff.mpr
                ((nodupKeys_iff _).mp hw.1)
              exact this
          simp [normalizeObject, h₁, h₂]

theorem normalizeList_eq_of_jequivList : ∀ {xs ys : List Json}, JEquivList xs ys →
    wfList xs = true → wfList ys = true → normalizeList xs = normalizeList ys
  | [], _, h, _, _ => by cases h; rfl
  | x :: xs, _, h, hv, hw => by
      cases h with
      | cons hx hl =>
          rename_i y ys
          rw [wfList, Bool.and_eq_true] at hv hw
          rw [normalizeList, normalizeList,
            normalizeObject_eq_of_jequiv hx hv.1 hw.1,
            normalizeList_eq_of_jequivList hl hv.2 hw.2]

theorem normalizeFields_eq_of_jequivFields : ∀ {fs gs : List (String × Json)},
    JEquivFields fs gs → wfFields fs = true → wfFields gs = true →
    normalizeFields fs = normalizeFields gs
  | [], _, h, _, _ => by cases h; rfl
  | (k, v) :: fs, _, h, hv, hw => by
      cases h with
      | cons _ hx hl =>
          rename_i w gs
          rw [wfFields, Bool.and_eq_true] at hv hw
          rw [normalizeFields, normalizeFields,
            normalizeObject_eq_of_jequiv hx hv.1 hw.1,
            normalizeFields_eq_of_jequivFields hl hv.2 hw.2]

end

/-- A permutation into the image of a map has a permuted preimage. -/
theorem exists_perm_preimage_of_perm_map {α β : Type _} (f : β → α) :
    ∀ {l₁ l₂ : List α}, l₁.Perm l₂ → ∀ m : List β, l₂ = m.map f →
      ∃ m₀ : List β, m₀.Perm m ∧ m₀.map f = l₁ := by
  intro l₁ l₂ h
  induction h with
  | nil =>
      intro m hm
      cases m with
      | nil => exact ⟨[], List.Perm.refl _, rfl⟩
      | cons b m' => simp at hm
  | cons x h ih =>
      intro m hm
      cases m with
      | nil => simp at hm
      | cons b m' =>
          simp only [List.map_cons, List.cons.injEq] at hm
          obtain ⟨m₀', hp, he⟩ := ih m' hm.2
          exact ⟨b :: m₀', hp.cons b, by simp [he, hm.1]⟩
  | swap x y t =>
      intro m hm
      cases m with
      | nil => simp at hm
      | cons b₁ m' =>
          cases m' with
          | nil => simp at hm
          | cons b₂ m'' =>
              simp only [List.map_cons, List.cons.injEq] at hm
              refine ⟨b₂ :: b₁ :: m'', List.Perm.swap b₁ b₂ m'', ?_⟩
              simp [hm.1, hm.2.1, hm.2.2]
  | trans h₁ h₂ ih₁ ih₂ =>
      intro m hm
      obtain ⟨m₂, hp₂, he₂⟩ := ih₂ m hm
      obtain ⟨m₁, hp₁, he₁⟩ := ih₁ m₂ he₂.symm
      exact ⟨m₁, hp₁.trans hp₂, he₁⟩

open Json in
mutual

theorem jequiv_of_normalizeObject_eq : ∀ (v w : Json),
    normalizeObject v = normalizeObject w → JEquiv v w
  | .null, w, h => by
      cases w <;> first | exact JEquiv.null | simp [normalizeObject] at h
  | .bool b, w, h => by
      cases w <;> simp [normalizeObject] at h
      exact h ▸ JEquiv.bool b
  | .num q, w, h => by
      cases w <;> simp [normalizeObject] at h
      exact h ▸ JEquiv.num q
  | .str s, w, h => by
      cases w <;> simp [normalizeObject] at h
      exact h ▸ JEquiv.str s
  | .arr xs, w, h => by
      cases w with
      | arr ys =>
          simp only [normalizeObject, Json.arr.injEq] at h
          exact JEquiv.arr (jequivList_of_normalizeList_eq xs ys h)
      | null | bool _ | num _ | str _ | obj _ => simp [normalizeObject] at h
  | .obj fs, w, h => by
      cases w with
      | obj gs =>
          simp only [normalizeObject, Json.obj.injEq] at h
          have hperm : (normalizeFields fs).Perm (normalizeFields gs) := by
            have p₁ : (normalizeFields fs).Perm (sortFields (normalizeFields fs)) :=
              (List.perm_insertionSort fieldLE _).symm
            have p₂ : (sortFields (normalizeFields gs)).Perm (normalizeFields gs) :=
              List.perm_insertionSort fieldLE _
            exact (p₁.trans (h ▸ p₂))
          obtain ⟨gs₀, hp, he⟩ :=
            exists_perm_preimage_of_perm_map (fun p => (p.1, normalizeObject p.2))
              hperm gs (normalizeFields_eq_map gs)
          have hfs : normalizeFields fs = normalizeFields gs₀ := by
            rw [normalizeFields_eq_map gs₀]; exact he.symm
          exact JEquiv.obj (jequivFields_of_normalizeFields_eq fs gs₀ hfs) hp
      | null | bool _ | num _ | str _ | arr _ => simp [normalizeObject] at h

theorem jequivList_of_normalizeList_eq : ∀ (xs ys : List Json),
    normalizeList xs = normalizeList ys → JEquivList xs ys
  | [], [], _ => JEquivList.nil
  | [], _ :: _, h => by simp [normalizeList] at h
  | _ :: _, [], h => by simp [normalizeList] at h
  | x :: xs, y :: ys, h => by
      simp only [normalizeList, List.cons.injEq] at h
      exact JEquivList.cons (jequiv_of_normalizeObject_eq x y h.1)
        (jequivList_of_normalizeList_eq xs ys h.2)

theorem jequivFields_of_normalizeFields_eq : ∀ (fs gs : List (String × Json)),
    normalizeFields fs = normalizeFields gs → JEquivFields fs gs
  | [], [], _ => JEquivFields.nil
  | [], (_, _) :: _, h => by simp [normalizeFields] at h
  | (_, _) :: _, [], h => by simp [normalizeFields] at h
  | (k, v) :: fs, (l, w) :: gs, h => by
      simp only [normalizeFields, List.cons.injEq, Prod.mk.injEq] at h
      obtain ⟨⟨hk, hv⟩, hrest⟩ := h
      subst hk
      exact JEquivFields.cons k (jequiv_of_normalizeObject_eq v w hv)
        (jequivFields_of_normalizeFields_eq fs gs hrest)

end

open Json in
/-- The function `normalizeObject` identifies exactly the values that agree up to recursive
permutation of object key order (for runtime-representable values, whose object
keys are duplicate-free). -/
theorem normalizeObject_eq_iff_jequiv {v w : Json}
    (hv : wf v = true) (hw : wf w = true) :
    normalizeObject v = normalizeObject w ↔ JEquiv v w :=
  ⟨jequiv_of_normalizeObject_eq v w,
   fun h => normalizeObject_eq_of_jequiv h hv hw⟩

theorem sanitize_strips_numbering_bullets_quotes :
    Instructions.sanitizeInstructionSuggestions
      [.str "1. Do X", .str "- Do Y", .str "\"Do Z\""] =
    ["Do X", "Do Y", "Do Z"] := by decide

theorem sanitize_drops_header_line : Instructions.sanitizeInstructionSuggestions [.str "Individual Suggestions:"] = [] := by
  decide

theorem sanitize_drops_non_strings : Instructions.sanitizeInstructionSuggestions [.num 5] = [] := by decide

namespace LLMResponseCache

theorem lookupEntry_mapSet_self {α : Type _} :
    ∀ (l : List (Json × ℕ × α)) (key : Json) (e : ℕ × α),
      lookupEntry (mapSet l key e) key = some e
  | [], key, e => by simp [mapSet, lookupEntry]
  | (k, e₀) :: rest, key, e => by
      by_cases h : k = key
      · simp [mapSet, h, lookupEntry]
      · simp [mapSet, h, lookupEntry, lookupEntry_mapSet_self rest key e]

end LLMResponseCache

namespace LLMResponseCache

theorem foldl_oldest_fixed {α : Type _} :
    ∀ (l : List (Json × ℕ × α)) (o : Json × ℕ × α),
      (∀ e' ∈ l, ¬ e'.2.1 < o.2.1) →
      l.foldl
        (fun acc e =>
          match acc with
          | none => some e
          | some o => if e.2.1 < o.2.1 then some e else acc)
        (some o) = some o
  | [], o, _ => rfl
  | a :: rest, o, h => by
      have ha : ¬ a.2.1 < o.2.1 := h a (by simp)
      simp only [List.foldl_cons, ha, if_false]
      exact foldl_oldest_fixed rest o (fun e' he' => h e' (by simp [he']))

theorem findOldest_of_strict_min {α : Type _} {e : Json × ℕ × α} :
    ∀ {l : List (Json × ℕ × α)},
      e ∈ l → (∀ e' ∈ l, e' ≠ e → e.2.1 < e'.2.1) →
      ∀ acc : Option (Json × ℕ × α),
        (acc = none ∨ ∃ o, acc = some o ∧ e.2.1 < o.2.1) →
        l.foldl
          (fun acc x =>
            match acc with
            | none => some x
            | some o => if x.2.1 < o.2.1 then some x else acc)
          acc = some e := by
  intro l
  induction l with
  | nil => intro h; exact absurd h (List.not_mem_nil e)
  | cons a rest ih =>
      intro hmem hmin acc hacc
      by_cases hae : a = e
      · subst hae
        have hrest : ∀ e' ∈ rest, ¬ e'.2.1 < a.2.1 := by
          intro e' he'
          by_cases he : e' = a
          · simp [he]
          · exact not_lt_of_gt (hmin e' (by simp [he']) he)
        rw [List.foldl_cons]
        rcases hacc with h | ⟨o, rfl, ho⟩
        · subst h
          exact foldl_oldest_fixed rest a hrest
        · simp only [ho, if_true]
          exact foldl_oldest_fixed rest a hrest
      · have hmem' : e ∈ rest := by
          rcases List.mem_cons.mp hmem with h | h
          · exact absurd h.symm hae
          · exact h
        have hmin' : ∀ e' ∈ rest, e' ≠ e → e.2.1 < e'.2.1 :=
          fun e' he' => hmin e' (by simp [he'])
        have hae' : e.2.1 < a.2.1 := hmin a (by simp) hae
        rw [List.foldl_cons]
        apply ih hmem' hmin'
        rcases hacc with h | ⟨o, rfl, ho⟩
        · subst h; exact Or.inr ⟨a, rfl, hae'⟩
        · by_cases hlt : a.2.1 < o.2.1
          · simp only [hlt, if_true]
            exact Or.inr ⟨a, rfl, hae'⟩
          · simp only [hlt, if_false]
            exact Or.inr ⟨o, rfl, ho⟩

/-- Under a unique strictly-minimal timestamp, the eviction scan finds exactly
that entry. -/
theorem findOldest_eq_of_strict_min {α : Type _} {l : List (Json × ℕ × α)}
    {e : Json × ℕ × α} (hmem : e ∈ l)
    (hmin : ∀ e' ∈ l, e' ≠ e → e.2.1 < e'.2.1) :
    findOldest l = some e :=
  findOldest_of_strict_min hmem hmin none (Or.inl rfl)

theorem eraseKey_of_not_mem {α : Type _} :
    ∀ {l : List (Json × ℕ × α)} {key : Json},
      key ∉ l.map Prod.fst → eraseKey l key = l := by
  intro l
  induction l with
  | nil => intro key _; rfl
  | cons a rest ih =>
      intro key h
      simp only [List.map_cons, List.mem_cons, not_or] at h
      simp [eraseKey, Ne.symm h.1, ih h.2]

theorem mapSet_of_not_mem {α : Type _} :
    ∀ {l : List (Json × ℕ × α)} {key : Json} {e : ℕ × α},
      key ∉ l.map Prod.fst → mapSet l key e = l ++ [(key, e)] := by
  intro l
  induction l with
  | nil => intro key e _; rfl
  | cons a rest ih =>
      intro key e h
      simp only [List.map_cons, List.mem_cons, not_or] at h
      simp [mapSet, Ne.symm h.1, ih h.2]

theorem mapSet_length_le {α : Type _} :
    ∀ (l : List (Json × ℕ × α)) (key : Json) (e : ℕ × α),
      (mapSet l key e).length ≤ l.length + 1
  | [], _, _ => by simp [mapSet]
  | (k, e₀) :: rest, key, e => by
      by_cases h : k = key
      · simp [mapSet, h]
      · simpa [mapSet, h] using mapSet_length_le rest key e

theorem eraseKey_length_of_mem {α : Type _} :
    ∀ {l : List (Json × ℕ × α)} {key : Json},
      key ∈ l.map Prod.fst → (eraseKey l key).length + 1 = l.length := by
  intro l
  induction l with
  | nil => intro key h; simp at h
  | cons a rest ih =>
      intro key h
      by_cases hk : a.1 = key
      · cases a; simp_all [eraseKey]
      · cases a with
        | mk k e =>
            simp only [List.map_cons, List.mem_cons] at h
            rcases h with h | h
            · exact absurd h.symm hk
            · simp [eraseKey, hk, ih h]

end LLMResponseCache

namespace LLMResponseCache

theorem eraseKey_sublist {α : Type _} :
    ∀ (l : List (Json × ℕ × α)) (key : Json), (eraseKey l key).Sublist l
  | [], _ => List.Sublist.refl _
  | (k, e) :: rest, key => by
      by_cases h : k = key
      · simp only [eraseKey, h, if_true]
        exact List.sublist_cons_self _ _
      · simp only [eraseKey, h, if_false]
        exact (eraseKey_sublist rest key).cons₂ _

theorem not_mem_eraseKey_keys {α : Type _} {l : List (Json × ℕ × α)}
    {key x : Json} (h : x ∉ l.map Prod.fst) :
    x ∉ (eraseKey l key).map Prod.fst :=
  fun hm => h (((eraseKey_sublist l key).map Prod.fst).mem hm)

theorem foldl_oldest_total {α : Type _} :
    ∀ (l : List (Json × ℕ × α)) (o : Json × ℕ × α),
      ∃ e, l.foldl
          (fun acc x =>
            match acc with
            | none => some x
            | some o => if x.2.1 < o.2.1 then some x else acc)
          (some o) = some e ∧ (e ∈ l ∨ e = o)
  | [], o => ⟨o, rfl, Or.inr rfl⟩
  | a :: rest, o => by
      rw [List.foldl_cons]
      by_cases h : a.2.1 < o.2.1
      · simp only [h, if_true]
        obtain ⟨e, he, hm⟩ := foldl_oldest_total rest a
        refine ⟨e, he, ?_⟩
        rcases hm with hm | rfl
        · exact Or.inl (by simp [hm])
        · exact Or.inl (by simp)
      · simp only [h, if_false]
        obtain ⟨e, he, hm⟩ := foldl_oldest_total rest o
        refine ⟨e, he, ?_⟩
        rcases hm with hm | rfl
        · exact Or.inl (by simp [hm])
        · exact Or.inr rfl

theorem findOldest_of_ne_nil {α : Type _} {l : List (Json × ℕ × α)}
    (h : l ≠ []) : ∃ e, findOldest l = some e ∧ e ∈ l := by
  cases l with
  | nil => exact absurd rfl h
  | cons a rest =>
      unfold findOldest
      rw [List.foldl_cons]
      obtain ⟨e, he, hm⟩ := foldl_oldest_total rest a
      refine ⟨e, he, ?_⟩
      rcases hm with hm | rfl
      · simp [hm]
      · simp

end LLMResponseCache

/-- Claim C5: on an enabled cache, `set` with temperature `0` followed by `get`
with the same messages, temperature and (absent or given) schema, before
`maxAge` has elapsed since the write, returns the stored value. -/
theorem cache_set_get_roundtrip {α : Type _} (cfg : LLMResponseCache.CacheConfig)
    (st : LLMResponseCache.CacheState α) (M : List Message) (V : α)
    (S : Option Json) (t₁ t₂ : ℕ) (hen : cfg.enabled = true)
    (hage : t₂ - t₁ ≤ cfg.maxAge) :
    (LLMResponseCache.get cfg (LLMResponseCache.set cfg st M 0 V S t₁)
      M 0 S t₂).1 = some V := by
  unfold LLMResponseCache.get LLMResponseCache.set
  simp only [hen, Bool.true_eq_false, if_false]
  rw [LLMResponseCache.lookupEntry_mapSet_self]
  simp [not_lt_of_ge hage]

/-- Claim C5 witness at a concrete input. -/
theorem cache_set_get_roundtrip_witness :
    (LLMResponseCache.CacheConfig.mk 3600000 1000 true).enabled = true ∧
    (105 : ℕ) - 100 ≤ 3600000 ∧
    (LLMResponseCache.get (LLMResponseCache.CacheConfig.mk 3600000 1000 true)
      (LLMResponseCache.set (LLMResponseCache.CacheConfig.mk 3600000 1000 true)
        ⟨[]⟩ [⟨"user", "test message", []⟩] 0 (42 : ℕ) none 100)
      [⟨"user", "test message", []⟩] 0 none 105).1 = some 42 :=
  ⟨rfl, by decide,
    cache_set_get_roundtrip _ _ _ _ _ 100 105 rfl (by decide)⟩

/-- Claim C6: on an enabled cache holding at least `maxSize` entries, `set`
evicts exactly the single entry with the (unique) oldest creation timestamp
before inserting the new entry; and after any `set` call on a cache within its
bound (with a positive bound, as the constructor guarantees), the entry count
still does not exceed `maxSize`. -/
theorem cache_set_evicts_oldest_and_bounded {α : Type _}
    (cfg : LLMResponseCache.CacheConfig) (st : LLMResponseCache.CacheState α)
    (M : List Message) (t : ℚ) (V : α) (S : Option Json) (now : ℕ)
    (hen : cfg.enabled = true) :
    (∀ old : Json × ℕ × α,
        cfg.maxSize ≤ st.entries.length →
        old ∈ st.entries →
        (∀ e ∈ st.entries, e ≠ old → old.2.1 < e.2.1) →
        LLMResponseCache.generateKey M t S ∉ st.entries.map Prod.fst →
        (LLMResponseCache.set cfg st M t V S now).entries =
          LLMResponseCache.eraseKey st.entries old.1 ++
            [(LLMResponseCache.generateKey M t S, now, V)]) ∧
    (1 ≤ cfg.maxSize → st.entries.length ≤ cfg.maxSize →
        (LLMResponseCache.set cfg st M t V S now).entries.length ≤ cfg.maxSize) := by
  constructor
  · intro old hcap hmem hmin hfresh
    unfold LLMResponseCache.set
    simp only [hen, Bool.true_eq_false, if_false, hcap, if_true,
      LLMResponseCache.findOldest_eq_of_strict_min hmem hmin]
    exact LLMResponseCache.mapSet_of_not_mem
      (LLMResponseCache.not_mem_eraseKey_keys hfresh)
  · intro hpos hsize
    unfold LLMResponseCache.set
    simp only [hen, Bool.true_eq_false, if_false]
    by_cases hcap : cfg.maxSize ≤ st.entries.length
    · have hne : st.entries ≠ [] := by
        intro h
        rw [h] at hcap
        simp at hcap
        omega
      obtain ⟨e, he, hm⟩ := LLMResponseCache.findOldest_of_ne_nil hne
      simp only [hcap, if_true, he]
      have hkey : e.1 ∈ st.entries.map Prod.fst :=
        List.mem_map_of_mem Prod.fst hm
      have hlen := LLMResponseCache.eraseKey_length_of_mem hkey
      calc (LLMResponseCache.mapSet (LLMResponseCache.eraseKey st.entries e.1)
              (LLMResponseCache.generateKey M t S) (now, V)).length
          ≤ (LLMResponseCache.eraseKey st.entries e.1).length + 1 :=
            LLMResponseCache.mapSet_length_le _ _ _
        _ = st.entries.length := hlen
        _ ≤ cfg.maxSize := hsize
    · simp only [hcap, if_false]
      have : st.entries.length < cfg.maxSize := lt_of_not_ge hcap
      calc (LLMResponseCache.mapSet st.entries (LLMResponseCache.generateKey M t S)
              (now, V)).length
          ≤ st.entries.length + 1 := LLMResponseCache.mapSet_length_le _ _ _
        _ ≤ cfg.maxSize := this

/-- Claim C6 witness: with `maxSize = 2` and entries `k1` (time 1) and `k2`
(time 2) present, inserting `k3` at time 3 evicts exactly `k1`, leaving `k2`
and `k3`, within the bound. -/
theorem cache_set_evicts_oldest_and_bounded_witness :
    (LLMResponseCache.set (LLMResponseCache.CacheConfig.mk 3600000 2 true)
      ⟨[(LLMResponseCache.generateKey [⟨"user", "k1", []⟩] 0 none, 1, (10 : ℕ)),
        (LLMResponseCache.generateKey [⟨"user", "k2", []⟩] 0 none, 2, 20)]⟩
      [⟨"user", "k3", []⟩] 0 30 none 3).entries =
      [(LLMResponseCache.generateKey [⟨"user", "k2", []⟩] 0 none, 2, 20),
       (LLMResponseCache.generateKey [⟨"user", "k3", []⟩] 0 none, 3, 30)] ∧
    (LLMResponseCache.set (LLMResponseCache.CacheConfig.mk 3600000 2 true)
      ⟨[(LLMResponseCache.generateKey [⟨"user", "k1", []⟩] 0 none, 1, (10 : ℕ)),
        (LLMResponseCache.generateKey [⟨"user", "k2", []⟩] 0 none, 2, 20)]⟩
      [⟨"user", "k3", []⟩] 0 30 none 3).entries.length ≤ 2 := by
  have h := cache_set_evicts_oldest_and_bounded
    (LLMResponseCache.CacheConfig.mk 3600000 2 true)
    ⟨[(LLMResponseCache.generateKey [⟨"user", "k1", []⟩] 0 none, 1, (10 : ℕ)),
      (LLMResponseCache.generateKey [⟨"user", "k2", []⟩] 0 none, 2, 20)]⟩
    [⟨"user", "k3", []⟩] 0 30 none 3 rfl
  refine ⟨?_, h.2 (by decide) (by decide)⟩
  have h1 := h.1 (LLMResponseCache.generateKey [⟨"user", "k1", []⟩] 0 none, 1, 10)
    (by decide) (by decide) (by decide) (by decide)
  rw [h1]
  decide

/-- Claim C10: the constructor treats `maxAge: 0` and `maxSize: 0` as falsy,
silently replacing them with the defaults (3,600,000 ms and 1,000 entries),
while `enabled: false` is honored as given; nonzero numeric options are kept. -/
theorem construct_zero_options_fall_back_to_defaults :
    LLMResponseCache.construct
        (some { maxAge := some 0, maxSize := some 0, enabled := some false }) =
      LLMResponseCache.CacheConfig.mk 3600000 1000 false ∧
    LLMResponseCache.construct
        (some { maxAge := some 0, maxSize := some 0, enabled := some true }) =
      LLMResponseCache.CacheConfig.mk 3600000 1000 true ∧
    LLMResponseCache.construct none =
      LLMResponseCache.CacheConfig.mk 3600000 1000 true ∧
    LLMResponseCache.construct
        (some { maxAge := some 5, maxSize := some 7, enabled := some false }) =
      LLMResponseCache.CacheConfig.mk 5 7 false := by
  refine ⟨rfl, rfl, rfl, rfl⟩

theorem map_msgKeyPart_eq_iff : ∀ (M M' : List Message),
    M.map LLMResponseCache.msgKeyPart = M'.map LLMResponseCache.msgKeyPart ↔
      M.map (fun m => (m.role, m.content)) = M'.map (fun m => (m.role, m.content))
  | [], [] => by simp
  | [], _ :: _ => by simp
  | _ :: _, [] => by simp
  | m :: M, m' :: M' => by
      simp only [List.map_cons, List.cons.injEq, LLMResponseCache.msgKeyPart,
        Json.obj.injEq, Prod.mk.injEq, Json.str.injEq]
      rw [map_msgKeyPart_eq_iff M M']
      tauto

/-- Claim C7: two cache keys coincide exactly when the messages agree on their
`role`/`content` projections (all other message fields being ignored), the
temperatures are equal, and the schemas are both absent or equivalent up to
recursive permutation of object key order. In particular the key is invariant
under recursively permuting schema object keys, and requests whose messages,
temperature, or schema differ semantically receive different keys. -/
theorem generateKey_eq_iff (M M' : List Message) (t t' : ℚ) (S S' : Option Json)
    (hS : schemaWf S = true) (hS' : schemaWf S' = true) :
    LLMResponseCache.generateKey M t S = LLMResponseCache.generateKey M' t' S' ↔
      (M.map (fun m => (m.role, m.content)) = M'.map (fun m => (m.role, m.content)) ∧
        t = t' ∧ schemaEquiv S S') := by
  cases S with
  | none =>
      cases S' with
      | none =>
          simp only [LLMResponseCache.generateKey, List.append_nil,
            Json.obj.injEq, List.cons.injEq, Prod.mk.injEq, Json.arr.injEq,
            Json.num.injEq, schemaEquiv, and_true, true_and]
          rw [map_msgKeyPart_eq_iff]
      | some s' =>
          simp [LLMResponseCache.generateKey, schemaEquiv]
  | some s =>
      cases S' with
      | none =>
          simp [LLMResponseCache.generateKey, schemaEquiv]
      | some s' =>
          simp only [LLMResponseCache.generateKey, List.cons_append,
            List.nil_append, Json.obj.injEq, List.cons.injEq, Prod.mk.injEq,
            Json.arr.injEq, Json.num.injEq, schemaEquiv, true_and, and_true]
          rw [map_msgKeyPart_eq_iff,
            normalizeObject_eq_iff_jequiv (by simpa [schemaWf] using hS)
              (by simpa [schemaWf] using hS')]

/-- Claim C7 witness: messages differing only in extra fields and schemas
differing only in key order produce the same key; the hypotheses hold at the
concrete schemas. -/
theorem generateKey_eq_iff_witness :
    schemaWf (some (Json.obj [("a", .num 1), ("b", .null)])) = true ∧
    schemaWf (some (Json.obj [("b", .null), ("a", .num 1)])) = true ∧
    LLMResponseCache.generateKey [⟨"user", "hi", [("requestId", Json.num 7)]⟩] 0
        (some (Json.obj [("a", .num 1), ("b", .null)])) =
      LLMResponseCache.generateKey [⟨"user", "hi", []⟩] 0
        (some (Json.obj [("b", .null), ("a", .num 1)])) := by
  refine ⟨by decide, by decide, ?_⟩
  refine (generateKey_eq_iff _ _ _ _ _ _ (by decide) (by decide)).mpr
    ⟨by decide, rfl, ?_⟩
  exact JEquiv.obj
    (JEquivFields.cons "a" (JEquiv.num 1)
      (JEquivFields.cons "b" JEquiv.null JEquivFields.nil))
    (List.Perm.swap _ _ _)

/-- Claim C1 (divergence, evaluated at the failing input): when the model
returns the structurally valid non-empty array `["Individual Suggestions:"]`,
whose sanitization yields zero usable items, `generateInstructions` returns
the empty list as a success from the very first attempt — one attempt in the
trace, no retry, no thrown error — because the source's "Sanitization failed"
throw is caught by its own surrounding `catch`, which returns `[]`. -/
theorem generateInstructions_returns_empty_when_sanitization_empty :
    (Instructions.generateInstructions
        (fun _ _ _ => .ok (Json.arr [.str "Individual Suggestions:"]))
        "stripe and mongodb").1 = .ok [] ∧
    (Instructions.generateInstructions
        (fun _ _ _ => .ok (Json.arr [.str "Individual Suggestions:"]))
        "stripe and mongodb").2.length = 1 := by
  constructor
  · rfl
  · rfl

theorem attemptTemperature_values :
    Instructions.attemptTemperature 0 = 0 ∧
    Instructions.attemptTemperature 1 = 3/10 ∧
    Instructions.attemptTemperature 2 = 3/5 ∧
    Instructions.attemptTemperature 3 = 9/10 := by
  refine ⟨?_, ?_, ?_, ?_⟩ <;>
    · rw [Instructions.attemptTemperature, min_eq_left (by norm_num)]
      norm_num

theorem generateInstructionsGo_succ
    (genObject : List Message → Json → ℚ → Except String Json)
    (fuel : ℕ) (messages : List Message) (retryCount : ℕ) :
    Instructions.generateInstructionsGo genObject (fuel + 1) messages retryCount =
      (match Instructions.attemptInstructionGeneration genObject messages retryCount with
       | .ok instructions =>
          (.ok instructions,
            [⟨Instructions.attemptTemperature retryCount, messages,
              Instructions.attemptInstructionGeneration genObject messages retryCount⟩])
       | .error e =>
          if Instructions.MAX_RETRIES < retryCount + 1 then
            (.error e,
              [⟨Instructions.attemptTemperature retryCount, messages,
                Instructions.attemptInstructionGeneration genObject messages retryCount⟩])
          else
            let next := Instructions.generateInstructionsGo genObject fuel
              (messages ++ [Instructions.feedbackMessage e]) (retryCount + 1)
            (next.1,
              ⟨Instructions.attemptTemperature retryCount, messages,
                Instructions.attemptInstructionGeneration genObject messages retryCount⟩
                :: next.2)) := rfl

theorem generateInstructionsGo_unfold
    (genObject : List Message → Json → ℚ → Except String Json)
    (fuel fuel' : ℕ) (hf : fuel = fuel' + 1)
    (messages : List Message) (retryCount : ℕ) :
    Instructions.generateInstructionsGo genObject fuel messages retryCount =
      (match Instructions.attemptInstructionGeneration genObject messages retryCount with
       | .ok instructions =>
          (.ok instructions,
            [⟨Instructions.attemptTemperature retryCount, messages,
              Instructions.attemptInstructionGeneration genObject messages retryCount⟩])
       | .error e =>
          if Instructions.MAX_RETRIES < retryCount + 1 then
            (.error e,
              [⟨Instructions.attemptTemperature retryCount, messages,
                Instructions.attemptInstructionGeneration genObject messages retryCount⟩])
          else
            let next := Instructions.generateInstructionsGo genObject fuel'
              (messages ++ [Instructions.feedbackMessage e]) (retryCount + 1)
            (next.1,
              ⟨Instructions.attemptTemperature retryCount, messages,
                Instructions.attemptInstructionGeneration genObject messages retryCount⟩
                :: next.2)) := by
  subst hf
  exact generateInstructionsGo_succ genObject fuel' messages retryCount

/-- Claim C2 (amended): with a validator that rejects every attempt, the loop
performs four attempts (the initial one plus `MAX_RETRIES = 3` retries),
attempt `n` running at temperature `min(0.3 * n, 1.0)`, i.e. the sequence
`0, 0.3, 0.6, 0.9`; the error finally thrown is the last (fourth) attempt's
error. -/
theorem generateInstructions_rejecting_validator_trace
    (genObject : List Message → Json → ℚ → Except String Json)
    (h : ∀ msgs r, ∃ e,
      Instructions.attemptInstructionGeneration genObject msgs r = .error e)
    (sys : String) :
    ((Instructions.generateInstructions genObject sys).2.map (·.temperature) =
        [Instructions.attemptTemperature 0, Instructions.attemptTemperature 1,
         Instructions.attemptTemperature 2, Instructions.attemptTemperature 3]) ∧
    ([Instructions.attemptTemperature 0, Instructions.attemptTemperature 1,
      Instructions.attemptTemperature 2, Instructions.attemptTemperature 3] =
        [0, 3/10, 3/5, 9/10]) ∧
    (∃ e, (Instructions.generateInstructions genObject sys).1 = .error e ∧
      ((Instructions.generateInstructions genObject sys).2.map
          (·.result)).getLast? = some (.error e)) := by
  obtain ⟨e₀, h₀⟩ := h [⟨"system", Instructions.instructionSystemPrompt, []⟩,
    ⟨"user", "Systems: " ++ sys, []⟩] 0
  obtain ⟨e₁, h₁⟩ := h ([⟨"system", Instructions.instructionSystemPrompt, []⟩,
    ⟨"user", "Systems: " ++ sys, []⟩] ++ [Instructions.feedbackMessage e₀]) 1
  obtain ⟨e₂, h₂⟩ := h (([⟨"system", Instructions.instructionSystemPrompt, []⟩,
    ⟨"user", "Systems: " ++ sys, []⟩] ++ [Instructions.feedbackMessage e₀]) ++
    [Instructions.feedbackMessage e₁]) 2
  obtain ⟨e₃, h₃⟩ := h ((([⟨"system", Instructions.instructionSystemPrompt, []⟩,
    ⟨"user", "Systems: " ++ sys, []⟩] ++ [Instructions.feedbackMessage e₀]) ++
    [Instructions.feedbackMessage e₁]) ++ [Instructions.feedbackMessage e₂]) 3
  have hrun : Instructions.generateInstructions genObject sys =
      (.error e₃,
        [⟨Instructions.attemptTemperature 0,
          [⟨"system", Instructions.instructionSystemPrompt, []⟩,
           ⟨"user", "Systems: " ++ sys, []⟩], .error e₀⟩,
         ⟨Instructions.attemptTemperature 1,
          [⟨"system", Instructions.instructionSystemPrompt, []⟩,
           ⟨"user", "Systems: " ++ sys, []⟩] ++ [Instructions.feedbackMessage e₀],
          .error e₁⟩,
         ⟨Instructions.attemptTemperature 2,
          ([⟨"system", Instructions.instructionSystemPrompt, []⟩,
            ⟨"user", "Systems: " ++ sys, []⟩] ++ [Instructions.feedbackMessage e₀]) ++
            [Instructions.feedbackMessage e₁], .error e₂⟩,
         ⟨Instructions.attemptTemperature 3,
          (([⟨"system", Instructions.instructionSystemPrompt, []⟩,
             ⟨"user", "Systems: " ++ sys, []⟩] ++ [Instructions.feedbackMessage e₀]) ++
            [Instructions.feedbackMessage e₁]) ++ [Instructions.feedbackMessage e₂],
          .error e₃⟩]) := by
    rw [Instructions.generateInstructions,
      generateInstructionsGo_unfold genObject (Instructions.MAX_RETRIES + 1) 3 rfl]
    simp only [h₀, Instructions.MAX_RETRIES, Nat.reduceAdd, Nat.reduceLT, reduceIte]
    rw [generateInstructionsGo_unfold genObject 3 2 rfl]
    simp only [h₁, Instructions.MAX_RETRIES, Nat.reduceAdd, Nat.reduceLT, reduceIte]
    rw [generateInstructionsGo_unfold genObject 2 1 rfl]
    simp only [h₂, Instructions.MAX_RETRIES, Nat.reduceAdd, Nat.reduceLT, reduceIte]
    rw [generateInstructionsGo_unfold genObject 1 0 rfl]
    simp only [h₃, Instructions.MAX_RETRIES, Nat.reduceAdd, Nat.reduceLT, reduceIte]
  rw [hrun]
  refine ⟨rfl, ?_, ⟨e₃, rfl, rfl⟩⟩
  have hv := attemptTemperature_values
  rw [hv.1, hv.2.1, hv.2.2.1, hv.2.2.2]

/-- Claim C2 (counterexample): with a model call that always fails, the loop
runs four attempts at temperatures `0, 0.3, 0.6, 0.9` — not the three attempts
`0, 0.3, 0.6` the claim states for the bound `MAX_RETRIES = 3`. -/
theorem generateInstructions_temperature_sequence_counterexample :
    ((Instructions.generateInstructions (fun _ _ _ => .error "invalid")
        "sys").2.map (·.temperature) = [0, 3/10, 3/5, 9/10]) ∧
    ([(0 : ℚ), 3/10, 3/5, 9/10] ≠ [0, 3/10, 3/5]) := by
  have hv := attemptTemperature_values
  constructor
  · show [Instructions.attemptTemperature 0, Instructions.attemptTemperature 1,
      Instructions.attemptTemperature 2, Instructions.attemptTemperature 3] =
      [0, 3/10, 3/5, 9/10]
    rw [hv.1, hv.2.1, hv.2.2.1, hv.2.2.2]
  · simp

/-- Claim C2 witness: the amended theorem applied to a concrete always-failing
model call. -/
theorem generateInstructions_rejecting_validator_trace_witness :
    ((Instructions.generateInstructions
        (fun _ _ _ => (.error "nope" : Except String Json)) "sys").2.map
        (·.temperature) =
      [Instructions.attemptTemperature 0, Instructions.attemptTemperature 1,
       Instructions.attemptTemperature 2, Instructions.attemptTemperature 3]) ∧
    ([Instructions.attemptTemperature 0, Instructions.attemptTemperature 1,
      Instructions.attemptTemperature 2, Instructions.attemptTemperature 3] =
        [0, 3/10, 3/5, 9/10]) ∧
    (∃ e, (Instructions.generateInstructions
        (fun _ _ _ => (.error "nope" : Except String Json)) "sys").1 = .error e ∧
      ((Instructions.generateInstructions
          (fun _ _ _ => (.error "nope" : Except String Json)) "sys").2.map
          (·.result)).getLast? = some (.error e)) :=
  generateInstructions_rejecting_validator_trace
    (fun _ _ _ => (.error "nope" : Except String Json))
    (fun _ _ => ⟨"nope", rfl⟩) "sys"

/-- Claim C3 (divergence, evaluated at the failing input): on a schema whose
nested property `a` itself carries `$schema`, `additionalProperties`,
`optional` markers and a `properties` map, `cleanSchemaForGemini` cleans the
root (markers removed, `required` listing every property added) but returns
the nested schema byte-for-byte unchanged: its markers survive and it gains no
`required` list, because the source's recursive calls mutate a fresh deep copy
and discard it. -/
theorem cleanSchemaForGemini_leaves_nested_levels_unchanged :
    GeminiModel.cleanSchemaForGemini
        (Json.obj
          [("type", .str "object"),
           ("$schema", .str "http://json-schema.org/draft-07/schema#"),
           ("additionalProperties", .bool false),
           ("properties", .obj
             [("a", .obj
               [("type", .str "object"),
                ("$schema", .str "nested"),
                ("additionalProperties", .bool false),
                ("optional", .bool true),
                ("properties", .obj [("b", .obj [("type", .str "string")])])])])]) =
      Json.obj
        [("type", .str "object"),
         ("properties", .obj
           [("a", .obj
             [("type", .str "object"),
              ("$schema", .str "nested"),
              ("additionalProperties", .bool false),
              ("optional", .bool true),
              ("properties", .obj [("b", .obj [("type", .str "string")])])])]),
         ("required", .arr [.str "a"])] ∧
    (Json.getField
        (GeminiModel.cleanSchemaForGemini
          (Json.obj
            [("type", .str "object"),
             ("$schema", .str "http://json-schema.org/draft-07/schema#"),
             ("additionalProperties", .bool false),
             ("properties", .obj
               [("a", .obj
                 [("type", .str "object"),
                  ("$schema", .str "nested"),
                  ("additionalProperties", .bool false),
                  ("optional", .bool true),
                  ("properties", .obj [("b", .obj [("type", .str "string")])])])])])
          |>.getField "properties" |>.getD .null |>.getField "a" |>.getD .null)
        "additionalProperties" = some (.bool false)) ∧
    (Json.getField
        (GeminiModel.cleanSchemaForGemini
          (Json.obj
            [("type", .str "object"),
             ("$schema", .str "http://json-schema.org/draft-07/schema#"),
             ("additionalProperties", .bool false),
             ("properties", .obj
               [("a", .obj
                 [("type", .str "object"),
                  ("$schema", .str "nested"),
                  ("additionalProperties", .bool false),
                  ("optional", .bool true),
                  ("properties", .obj [("b", .obj [("type", .str "string")])])])])])
          |>.getField "properties" |>.getD .null |>.getField "a" |>.getD .null)
        "required" = none) := by
  refine ⟨by decide, by decide, by decide⟩

/-- Claim C4 (counterexample): the vendor reply `{___results: 0}` parses to the
wrapper shape for a wrapped numeric root schema, yet the unwrap step — a
truthiness test — leaves it wrapped, so `generateObject` returns the wrapper
object rather than the inner value `0`. -/
theorem openai_unwrap_not_identity_counterexample :
    OpenAIModel.unwrapResults (Json.obj [("___results", .num 0)]) =
      Json.obj [("___results", .num 0)] ∧
    Json.obj [("___results", .num 0)] ≠ Json.num 0 :=
  ⟨rfl, by decide⟩

set_option maxHeartbeats 2000000 in
/-- Claim C4 (amended): every object schema whose root `type` is not
`"object"` is dispatched as the synthetic single-key wrapper
`{type: "object", properties: {___results: …}, so on}` with
`required: ["___results"]`; after parsing, a reply `{___results: v}` is
unwrapped to `v` exactly when `v` is truthy — falsy inner values (`null`,
`false`, `0`, `""`) are returned still wrapped. -/
theorem openai_wrap_unwrap (fs : List (String × Json))
    (hne : Json.lookupField fs "type" ≠ some (.str "object")) :
    OpenAIModel.enforceStrictSchema (.obj fs) true =
      .obj [("type", .str "object"),
            ("properties", .obj [("___results",
              OpenAIModel.enforceStrictSchema (.obj fs) false)]),
            ("additionalProperties", .bool false),
            ("strict", .bool true),
            ("required", .arr [.str "___results"])] ∧
    (∀ v : Json, Json.truthy v = true →
      OpenAIModel.unwrapResults (.obj [("___results", v)]) = v) ∧
    (∀ v : Json, Json.truthy v = false →
      OpenAIModel.unwrapResults (.obj [("___results", v)]) =
        .obj [("___results", v)]) := by
  refine ⟨?_, ?_, ?_⟩
  · rw [OpenAIModel.enforceStrictSchema.eq_def]
    rw [if_neg (by simp [Json.isJsObject]),
      dif_pos ⟨rfl, by simpa [Json.getField] using hne⟩]
  · intro v hv
    simp [OpenAIModel.unwrapResults, Json.getField, Json.lookupField, hv]
  · intro v hv
    simp [OpenAIModel.unwrapResults, Json.getField, Json.lookupField, hv]

/-- Claim C4 witness: the wrap at the concrete array schema
`{type: "array", items: {type: 'string'}}`, a truthy unwrap and a falsy
non-unwrap. -/
theorem openai_wrap_unwrap_witness :
    (OpenAIModel.enforceStrictSchema
        (.obj [("type", Json.str "array"),
               ("items", .obj [("type", Json.str "string")])]) true =
      .obj [("type", .str "object"),
            ("properties", .obj [("___results",
              OpenAIModel.enforceStrictSchema
                (.obj [("type", Json.str "array"),
                       ("items", .obj [("type", Json.str "string")])]) false)]),
            ("additionalProperties", .bool false),
            ("strict", .bool true),
            ("required", .arr [.str "___results"])]) ∧
    (OpenAIModel.unwrapResults (.obj [("___results", .arr [.str "a"])]) =
      .arr [.str "a"]) ∧
    (OpenAIModel.unwrapResults (.obj [("___results", .bool false)]) =
      .obj [("___results", .bool false)]) := by
  have h := openai_wrap_unwrap
    [("type", Json.str "array"), ("items", .obj [("type", Json.str "string")])]
    (by decide)
  exact ⟨h.1, h.2.1 _ rfl, h.2.2 _ rfl⟩

namespace Queue

theorem inv_init : Inv initState := by
  refine ⟨fun id => ?_, List.nodup_nil, List.nodup_nil⟩
  simp [initState, trackedIds]

theorem perm_snoc_append {α : Type _} (a c : List α) (x : α) :
    ((a ++ [x]) ++ c).Perm ((a ++ c) ++ [x]) := by
  rw [List.append_assoc, List.append_assoc]
  exact List.Perm.append_left a List.perm_append_comm

theorem inv_enqueue {st : State} (h : Inv st) (id : String) (tid : ℕ)
    (fails : Bool) : Inv (enqueue st id tid fails) := by
  obtain ⟨q, js, r, ex, lg⟩ := st
  obtain ⟨hiff, hns, hnt⟩ := h
  by_cases hm : id ∈ js
  · simp only [enqueue, hm, if_true]
    exact ⟨hiff, hns, hnt⟩
  · simp only [enqueue, hm, if_false]
    have hnotrack : id ∉ trackedIds ⟨q, js, r, ex, lg⟩ :=
      fun hc => hm ((hiff id).mpr hc)
    cases r with
    | none =>
        simp only [trackedIds, List.append_nil] at hiff hnt hnotrack
        refine ⟨fun x => ?_, ?_, ?_⟩
        · have hx := hiff x
          simp only [trackedIds, List.append_nil, List.map_append,
            List.map_cons, List.map_nil, List.mem_append,
            List.mem_singleton] at hx ⊢
          tauto
        · rw [List.nodup_append]
          exact ⟨hns, List.nodup_singleton id,
            by simpa [List.disjoint_singleton] using hm⟩
        · simp only [trackedIds, List.append_nil, List.map_append,
            List.map_cons, List.map_nil]
          rw [List.nodup_append]
          exact ⟨hnt, List.nodup_singleton id,
            by simpa [List.disjoint_singleton] using hnotrack⟩
    | some j =>
        simp only [trackedIds] at hiff hnt hnotrack
        refine ⟨fun x => ?_, ?_, ?_⟩
        · have hx := hiff x
          simp only [trackedIds, List.map_append, List.map_cons,
            List.map_nil, List.mem_append, List.mem_singleton] at hx ⊢
          tauto
        · rw [List.nodup_append]
          exact ⟨hns, List.nodup_singleton id,
            by simpa [List.disjoint_singleton] using hm⟩
        · simp only [trackedIds, List.map_append, List.map_cons, List.map_nil]
          refine (perm_snoc_append (q.map Job.id) [j.id] id).nodup_iff.mpr ?_
          rw [List.nodup_append]
          exact ⟨hnt, List.nodup_singleton id,
            by simpa [List.disjoint_singleton] using hnotrack⟩

theorem inv_startJob {st : State} (h : Inv st) : Inv (startJob st) := by
  obtain ⟨q, js, r, ex, lg⟩ := st
  obtain ⟨hiff, hns, hnt⟩ := h
  cases r with
  | some j => exact ⟨hiff, hns, hnt⟩
  | none =>
      cases q with
      | nil => exact ⟨hiff, hns, hnt⟩
      | cons job rest =>
          show Inv ⟨rest, js, some job, ex,
            lg ++ ["Processing queue " ++ job.id]⟩
          simp only [trackedIds, List.map_cons, List.append_nil] at hiff hnt
          refine ⟨fun x => ?_, hns, ?_⟩
          · rw [hiff x]
            simp only [trackedIds, List.mem_cons, List.mem_append,
              List.mem_singleton]
            tauto
          · simp only [trackedIds]
            exact List.perm_append_comm.nodup_iff.mpr hnt

theorem inv_finishJob {st : State} (h : Inv st) : Inv (finishJob st) := by
  obtain ⟨q, js, r, ex, lg⟩ := st
  obtain ⟨hiff, hns, hnt⟩ := h
  cases r with
  | none => exact ⟨hiff, hns, hnt⟩
  | some j =>
      show Inv ⟨q, js.erase j.id, none, ex ++ [j.taskId],
        lg ++ (if j.fails then [errMsg j.id] else [])⟩
      simp only [trackedIds] at hiff hnt
      have hnotq : j.id ∉ q.map Job.id := by
        rcases List.nodup_append.mp hnt with ⟨_, _, hdisj⟩
        intro hc
        exact hdisj hc (List.mem_singleton_self _)
      refine ⟨fun x => ?_, hns.erase _, ?_⟩
      · rw [hns.mem_erase_iff, hiff x]
        simp only [trackedIds, List.append_nil, List.mem_append,
          List.mem_singleton]
        constructor
        · rintro ⟨hne, hq | rfl⟩
          · exact hq
          · exact absurd rfl hne
        · intro hq
          exact ⟨fun hc => hnotq (hc ▸ hq), Or.inl hq⟩
      · simp only [trackedIds, List.append_nil]
        exact (List.nodup_append.mp hnt).1

theorem inv_applyStep {st : State} (h : Inv st) (s : Step) :
    Inv (applyStep st s) := by
  cases s with
  | enq id tid fails => exact inv_enqueue h id tid fails
  | start => exact inv_startJob h
  | finish => exact inv_finishJob h

theorem inv_run (steps : List Step) : Inv (run steps) := by
  suffices hgen : ∀ st, Inv st → Inv (steps.foldl applyStep st) from
    hgen initState inv_init
  induction steps with
  | nil => exact fun st h => h
  | cons s rest ih => exact fun st h => ih _ (inv_applyStep h s)

end Queue

namespace Queue

theorem R_applyStep {st st' : State} (h : R st st') (s : Step) :
    R (applyStep st s) (applyStep st' s.strip) := by
  obtain ⟨q, js, r, ex, lg⟩ := st
  obtain ⟨q', js', r', ex', lg'⟩ := st'
  obtain ⟨hq, hjs, hr, hex⟩ := h
  simp only at hq hjs hr hex
  cases s with
  | enq id tid fails =>
      simp only [Step.strip, applyStep, enqueue, hjs]
      by_cases hm : id ∈ js'
      · simp only [hm, if_true]
        exact ⟨hq, rfl, hr, hex⟩
      · simp only [hm, if_false]
        refine ⟨?_, rfl, hr, hex⟩
        simp only [List.map_append, List.map_cons, List.map_nil, hq, Job.proj]
  | start =>
      simp only [Step.strip, applyStep]
      cases r with
      | some j =>
          cases r' with
          | some j' =>
              simp only [startJob]
              exact ⟨hq, hjs, hr, hex⟩
          | none => simp [Job.proj] at hr
      | none =>
          cases r' with
          | some j' => simp [Job.proj] at hr
          | none =>
              cases q with
              | nil =>
                  cases q' with
                  | nil => exact ⟨hq, hjs, hr, hex⟩
                  | cons b bs => simp at hq
              | cons a as =>
                  cases q' with
                  | nil => simp at hq
                  | cons b bs =>
                      simp only [List.map_cons, List.cons.injEq] at hq
                      simp only [startJob]
                      exact ⟨hq.2, hjs, by simp [hq.1], hex⟩
  | finish =>
      simp only [Step.strip, applyStep]
      cases r with
      | none =>
          cases r' with
          | none => exact ⟨hq, hjs, hr, hex⟩
          | some j' => simp [Job.proj] at hr
      | some j =>
          cases r' with
          | none => simp [Job.proj] at hr
          | some j' =>
              simp only [Option.map_some', Option.some.injEq, Job.proj,
                Prod.mk.injEq] at hr
              simp only [finishJob]
              exact ⟨hq, by rw [hjs, hr.1], rfl, by rw [hex, hr.2]⟩

theorem R_run (steps : List Step) :
    R (run steps) (run (steps.map Step.strip)) := by
  suffices hgen : ∀ st st', R st st' →
      R (steps.foldl applyStep st) ((steps.map Step.strip).foldl applyStep st') from
    hgen initState initState ⟨rfl, rfl, rfl, rfl⟩
  induction steps with
  | nil => exact fun st st' h => h
  | cons s rest ih =>
      intro st st' h
      simp only [List.map_cons, List.foldl_cons]
      exact ih _ _ (R_applyStep h s)

end Queue

/-- Claim C8: in every reachable queue state, an id is in the tracked set
(`jobSet`) exactly when it is queued or in-flight — i.e. from `enqueue` until
its task settles; a second `enqueue` of a tracked id changes nothing but the
log (its task is discarded); and on the concrete trace enqueue(a,t1),
enqueue(a,t2) before settling, then re-enqueue(a,t3) after settling, exactly
the first and third tasks execute, with one duplicate notice logged. -/
theorem queue_id_tracked_exactly_while_pending :
    (∀ (steps : List Queue.Step) (id : String),
      id ∈ (Queue.run steps).jobSet ↔
        id ∈ Queue.trackedIds (Queue.run steps)) ∧
    (∀ (st : Queue.State) (id : String) (tid : ℕ) (fails : Bool),
      id ∈ st.jobSet →
        (Queue.enqueue st id tid fails).queue = st.queue ∧
        (Queue.enqueue st id tid fails).jobSet = st.jobSet ∧
        (Queue.enqueue st id tid fails).running = st.running ∧
        (Queue.enqueue st id tid fails).executed = st.executed ∧
        (Queue.enqueue st id tid fails).logs = st.logs ++ [Queue.dupMsg id]) ∧
    (Queue.run [.enq "a" 1 false, .enq "a" 2 false, .start, .finish,
        .enq "a" 3 false, .start, .finish] =
      ⟨[], [], none, [1, 3],
        [Queue.dupMsg "a", "Processing queue a", "Processing queue a"]⟩) := by
  refine ⟨fun steps id => (Queue.inv_run steps).1 id, ?_, by decide⟩
  intro st id tid fails hm
  simp [Queue.enqueue, hm]

/-- Claim C8 witness: the tracked-set characterization at a concrete trace, a
duplicate enqueue that only logs, and the exactly-once concrete trace. -/
theorem queue_id_tracked_exactly_while_pending_witness :
    ("a" ∈ (Queue.run [.enq "a" 1 false, .start]).jobSet ↔
      "a" ∈ Queue.trackedIds (Queue.run [.enq "a" 1 false, .start])) ∧
    ((Queue.enqueue ⟨[⟨"a", 1, false⟩], ["a"], none, [], []⟩
        "a" 2 false).logs = [] ++ [Queue.dupMsg "a"]) ∧
    (Queue.run [.enq "a" 1 false, .enq "a" 2 false, .start, .finish,
        .enq "a" 3 false, .start, .finish] =
      ⟨[], [], none, [1, 3],
        [Queue.dupMsg "a", "Processing queue a", "Processing queue a"]⟩) := by
  have h := queue_id_tracked_exactly_while_pending
  exact ⟨h.1 _ "a",
    (h.2.1 ⟨[⟨"a", 1, false⟩], ["a"], none, [], []⟩ "a" 2 false
      (by decide)).2.2.2.2, h.2.2⟩

/-- Claim C9: a task that throws is caught inside the worker loop — the settle
step appends the error to the log, releases the id and leaves the worker ready
for the next job; whether tasks throw or not changes nothing an observer of
executions can see (pending jobs, tracked ids, in-flight job, execution
order — only the logs); and on a concrete trace a throwing first task does
not prevent the second job from running. `enqueue` itself is a total function
of the state, so no task failure ever propagates to an `enqueue` caller. -/
theorem queue_task_errors_isolated :
    (∀ steps : List Queue.Step,
      Queue.R (Queue.run steps) (Queue.run (steps.map Queue.Step.strip))) ∧
    (∀ (st : Queue.State) (j : Queue.Job), st.running = some j →
      j.fails = true →
        (Queue.finishJob st).executed = st.executed ++ [j.taskId] ∧
        (Queue.finishJob st).logs = st.logs ++ [Queue.errMsg j.id] ∧
        (Queue.finishJob st).jobSet = st.jobSet.erase j.id ∧
        (Queue.finishJob st).running = none) ∧
    (Queue.run [.enq "a" 1 true, .enq "b" 2 false, .start, .finish,
        .start, .finish] =
      ⟨[], [], none, [1, 2],
        ["Processing queue a", Queue.errMsg "a", "Processing queue b"]⟩) := by
  refine ⟨Queue.R_run, ?_, by decide⟩
  intro st j hr hf
  simp [Queue.finishJob, hr, hf]

/-- Claim C9 witness: the bisimulation at a concrete throwing trace, the
settle step of a concrete throwing task, and the concrete trace itself. -/
theorem queue_task_errors_isolated_witness :
    Queue.R (Queue.run [.enq "a" 1 true, .start])
      (Queue.run ([Queue.Step.enq "a" 1 true, .start].map Queue.Step.strip)) ∧
    ((Queue.finishJob ⟨[], ["a"], some ⟨"a", 1, true⟩, [], []⟩).executed =
        [] ++ [1] ∧
      (Queue.finishJob ⟨[], ["a"], some ⟨"a", 1, true⟩, [], []⟩).logs =
        [] ++ [Queue.errMsg "a"] ∧
      (Queue.finishJob ⟨[], ["a"], some ⟨"a", 1, true⟩, [], []⟩).jobSet =
        (["a"] : List String).erase "a" ∧
      (Queue.finishJob ⟨[], ["a"], some ⟨"a", 1, true⟩, [], []⟩).running =
        none) ∧
    (Queue.run [.enq "a" 1 true, .enq "b" 2 false, .start, .finish,
        .start, .finish] =
      ⟨[], [], none, [1, 2],
        ["Processing queue a", Queue.errMsg "a", "Processing queue b"]⟩) := by
  have h := queue_task_errors_isolated
  exact ⟨h.1 _, h.2.1 ⟨[], ["a"], some ⟨"a", 1, true⟩, [], []⟩
    ⟨"a", 1, true⟩ rfl rfl, h.2.2⟩
